import Mathlib

/-!
Verification of the code-context-menu core of the editor
(`crates/editor/src/code_context_menus.rs`): fuzzy-match filtering and
ranking for the completions menu, selection navigation, the
resolve-on-select protocol, and the task/code-action merged index space.

Strings are modelled as `List Char` (Rust `String`/`&str` at the
code-point level; `&str` ordering is byte-lexicographic on UTF-8 which
agrees with code-point lexicographic order).  `f64` fuzzy scores are
modelled as `Rat`: the scores produced by the matcher live in `[0, 1]`
and are never NaN, so the `OrderedFloat` total order used by the code is
an order embedding into the rationals.

Rust's derived `Ord` instances are modelled by explicit comparator
functions returning `Ordering`, composed lexicographically with
`Ordering.then` exactly as `#[derive(Ord)]` composes field comparisons.
-/

abbrev Str := List Char

/-! ### Comparators: a model of Rust `Ord` derivation -/

/-- Lexicographic composition of two comparators on the same type,
mirroring how Rust's `#[derive(Ord)]` chains field comparisons. -/
def cmpLex {α : Type} (c₁ c₂ : α → α → Ordering) (a b : α) : Ordering :=
  (c₁ a b).then (c₂ a b)

/-- Comparison by a projection. -/
def cmpBy {α β : Type} (c : α → α → Ordering) (f : β → α) (a b : β) : Ordering :=
  c (f a) (f b)

/-- Reversed comparator: the model of Rust `std::cmp::Reverse`. -/
def cmpRev {α : Type} (c : α → α → Ordering) (a b : α) : Ordering :=
  c b a

/-- Comparator derived from a linear order (Rust `Ord` on primitives). -/
def cmpOfLt {α : Type} [LinearOrder α] (a b : α) : Ordering :=
  if a < b then .lt else if b < a then .gt else .eq

/-- Comparator on `Option`, mirroring Rust's derived `Ord` on
`Option<T>`: `None` is less than `Some(_)`. -/
def cmpOption {α : Type} (c : α → α → Ordering) : Option α → Option α → Ordering
  | none, none => .eq
  | none, some _ => .lt
  | some _, none => .gt
  | some a, some b => c a b

/-- Lexicographic comparator on lists, mirroring Rust's `Ord` on
slices and on `&str` (at code-point granularity). -/
def cmpList {α : Type} (c : α → α → Ordering) : List α → List α → Ordering
  | [], [] => .eq
  | [], _ :: _ => .lt
  | _ :: _, [] => .gt
  | x :: xs, y :: ys => (c x y).then (cmpList c xs ys)

/-- Comparator on pairs, mirroring Rust's derived `Ord` on tuples. -/
def cmpProd {α β : Type} (c₁ : α → α → Ordering) (c₂ : β → β → Ordering) :
    α × β → α × β → Ordering :=
  cmpLex (cmpBy c₁ Prod.fst) (cmpBy c₂ Prod.snd)

/-- Comparator on a sum type whose left summand is entirely below the
right summand, mirroring Rust's derived `Ord` on a two-variant enum. -/
def cmpSum {α β : Type} (c₁ : α → α → Ordering) (c₂ : β → β → Ordering) :
    α ⊕ β → α ⊕ β → Ordering
  | .inl a, .inl b => c₁ a b
  | .inl _, .inr _ => .lt
  | .inr _, .inl _ => .gt
  | .inr a, .inr b => c₂ a b

/-- Rust `char` ordering: by code point. -/
def cmpChar (a b : Char) : Ordering :=
  cmpOfLt a.toNat b.toNat

/-- Rust `&str` ordering. -/
def cmpStr : Str → Str → Ordering :=
  cmpList cmpChar

/-- Rust `usize` ordering. -/
def cmpNat : Nat → Nat → Ordering :=
  cmpOfLt

/-- Model of `OrderedFloat<f64>` ordering, on the rational model of scores. -/
def cmpRat : Rat → Rat → Ordering :=
  cmpOfLt

/-- The laws a comparator inherits from a Rust `Ord` implementation:
antisymmetry of the reported ordering and transitivity of `≤` (that is,
of `cmp · · ≠ .gt`). -/
structure LawCmp {α : Type} (c : α → α → Ordering) : Prop where
  symm : ∀ a b, c a b = (c b a).swap
  leTrans : ∀ {a b d}, c a b ≠ .gt → c b d ≠ .gt → c a d ≠ .gt

theorem Ordering.then_swap (x y : Ordering) : (x.then y).swap = x.swap.then y.swap := by
  cases x <;> cases y <;> rfl

theorem Ordering.then_ne_gt {x y : Ordering} :
    x.then y ≠ .gt ↔ x = .lt ∨ (x = .eq ∧ y ≠ .gt) := by
  cases x <;> cases y <;> decide

namespace LawCmp

variable {α : Type} {c : α → α → Ordering} {a b d : α}

theorem eq_symm (h : LawCmp c) (hab : c a b = .eq) : c b a = .eq := by
  have := h.symm b a
  rw [hab] at this
  exact this

theorem gt_of_lt (h : LawCmp c) (hab : c a b = .lt) : c b a = .gt := by
  have := h.symm b a
  rw [hab] at this
  exact this

theorem ne_gt_of_lt (hab : c a b = .lt) : c a b ≠ .gt := by
  rw [hab]; decide

theorem ne_gt_of_eq (hab : c a b = .eq) : c a b ≠ .gt := by
  rw [hab]; decide

theorem ltTrans (h : LawCmp c) (hab : c a b = .lt) (hbd : c b d = .lt) :
    c a d = .lt := by
  have hle := h.leTrans (ne_gt_of_lt hab) (ne_gt_of_lt hbd)
  cases had : c a d with
  | lt => rfl
  | gt => exact absurd had hle
  | eq =>
    have hda : c d a ≠ .gt := ne_gt_of_eq (h.eq_symm had)
    have hdb : c d b ≠ .gt := h.leTrans hda (ne_gt_of_lt hab)
    exact absurd (h.gt_of_lt hbd) hdb

theorem eqLtTrans (h : LawCmp c) (hab : c a b = .eq) (hbd : c b d = .lt) :
    c a d = .lt := by
  have hle := h.leTrans (ne_gt_of_eq hab) (ne_gt_of_lt hbd)
  cases had : c a d with
  | lt => rfl
  | gt => exact absurd had hle
  | eq =>
    have hda : c d a ≠ .gt := ne_gt_of_eq (h.eq_symm had)
    have hdb : c d b ≠ .gt := h.leTrans hda (ne_gt_of_eq hab)
    exact absurd (h.gt_of_lt hbd) hdb

theorem ltEqTrans (h : LawCmp c) (hab : c a b = .lt) (hbd : c b d = .eq) :
    c a d = .lt := by
  have hle := h.leTrans (ne_gt_of_lt hab) (ne_gt_of_eq hbd)
  cases had : c a d with
  | lt => rfl
  | gt => exact absurd had hle
  | eq =>
    have hda : c d a ≠ .gt := ne_gt_of_eq (h.eq_symm had)
    have hba : c b d ≠ .gt := ne_gt_of_eq hbd
    have hb_a : c b a ≠ .gt := h.leTrans hba hda
    exact absurd (h.gt_of_lt hab) hb_a

theorem eqTrans (h : LawCmp c) (hab : c a b = .eq) (hbd : c b d = .eq) :
    c a d = .eq := by
  have hle := h.leTrans (ne_gt_of_eq hab) (ne_gt_of_eq hbd)
  have hdb : c d b ≠ .gt := ne_gt_of_eq (h.eq_symm hbd)
  have hba : c b a ≠ .gt := ne_gt_of_eq (h.eq_symm hab)
  have hda : c d a ≠ .gt := h.leTrans hdb hba
  have hswap := h.symm a d
  cases hda' : c d a with
  | lt => rw [hda', Ordering.swap] at hswap; exact absurd hswap hle
  | gt => exact absurd hda' hda
  | eq => rw [hda', Ordering.swap] at hswap; exact hswap

theorem total (h : LawCmp c) (a b : α) : c a b ≠ .gt ∨ c b a ≠ .gt := by
  cases hab : c a b with
  | lt => exact Or.inl (by decide)
  | eq => exact Or.inl (by decide)
  | gt =>
    right
    have := h.symm a b
    rw [hab] at this
    cases hba : c b a <;> rw [hba] at this <;> simp [Ordering.swap] at this ⊢

end LawCmp

theorem lawCmp_comap {α β : Type} {c : α → α → Ordering} (h : LawCmp c) (f : β → α) :
    LawCmp (fun a b => c (f a) (f b)) where
  symm a b := h.symm (f a) (f b)
  leTrans hab hbd := h.leTrans hab hbd

theorem lawCmp_cmpBy {α β : Type} {c : α → α → Ordering} (h : LawCmp c) (f : β → α) :
    LawCmp (cmpBy c f) :=
  lawCmp_comap h f

theorem lawCmp_cmpLex {α : Type} {c₁ c₂ : α → α → Ordering}
    (h₁ : LawCmp c₁) (h₂ : LawCmp c₂) : LawCmp (cmpLex c₁ c₂) where
  symm a b := by
    show (c₁ a b).then (c₂ a b) = ((c₁ b a).then (c₂ b a)).swap
    rw [Ordering.then_swap, ← h₁.symm, ← h₂.symm]
  leTrans {a b d} hab hbd := by
    rw [show cmpLex c₁ c₂ a b = (c₁ a b).then (c₂ a b) from rfl,
      Ordering.then_ne_gt] at hab
    rw [show cmpLex c₁ c₂ b d = (c₁ b d).then (c₂ b d) from rfl,
      Ordering.then_ne_gt] at hbd
    rw [show cmpLex c₁ c₂ a d = (c₁ a d).then (c₂ a d) from rfl,
      Ordering.then_ne_gt]
    rcases hab with hab | ⟨hab, hab₂⟩ <;> rcases hbd with hbd | ⟨hbd, hbd₂⟩
    · exact Or.inl (h₁.ltTrans hab hbd)
    · exact Or.inl (h₁.ltEqTrans hab hbd)
    · exact Or.inl (h₁.eqLtTrans hab hbd)
    · exact Or.inr ⟨h₁.eqTrans hab hbd, h₂.leTrans hab₂ hbd₂⟩

theorem lawCmp_cmpOfLt {α : Type} [LinearOrder α] : LawCmp (cmpOfLt (α := α)) where
  symm a b := by
    rcases lt_trichotomy a b with hlt | heq | hgt
    · simp [cmpOfLt, hlt, not_lt_of_gt hlt, Ordering.swap]
    · simp [cmpOfLt, heq, Ordering.swap]
    · simp [cmpOfLt, hgt, not_lt_of_gt hgt, Ordering.swap]
  leTrans {a b d} hab hbd := by
    have hab' : a ≤ b := by
      by_contra hcon
      push_neg at hcon
      simp [cmpOfLt, hcon, not_lt_of_gt hcon] at hab
    have hbd' : b ≤ d := by
      by_contra hcon
      push_neg at hcon
      simp [cmpOfLt, hcon, not_lt_of_gt hcon] at hbd
    have had : a ≤ d := le_trans hab' hbd'
    show (if a < d then Ordering.lt else if d < a then Ordering.gt else Ordering.eq) ≠ .gt
    rcases lt_or_eq_of_le had with hlt | heq
    · simp [hlt]
    · subst heq
      simp [lt_irrefl]

theorem lawCmp_cmpOption {α : Type} {c : α → α → Ordering} (h : LawCmp c) :
    LawCmp (cmpOption c) where
  symm a b := by
    cases a <;> cases b
    · rfl
    · rfl
    · rfl
    · exact h.symm _ _
  leTrans {a b d} hab hbd := by
    cases a <;> cases b <;> cases d <;> simp_all [cmpOption]
    exact h.leTrans hab hbd

theorem cmpList_nil_ne_gt {α : Type} {c : α → α → Ordering} (bs : List α) :
    cmpList c [] bs ≠ .gt := by
  cases bs <;> simp [cmpList]

theorem lawCmp_cmpList {α : Type} {c : α → α → Ordering} (h : LawCmp c) :
    LawCmp (cmpList c) where
  symm a b := by
    induction a generalizing b with
    | nil => cases b <;> simp [cmpList, Ordering.swap]
    | cons x xs ih =>
      cases b with
      | nil => simp [cmpList, Ordering.swap]
      | cons y ys =>
        show (c x y).then (cmpList c xs ys) = ((c y x).then (cmpList c ys xs)).swap
        rw [Ordering.then_swap, ← h.symm, ← ih]
  leTrans {a b d} hab hbd := by
    induction a generalizing b d with
    | nil => exact cmpList_nil_ne_gt d
    | cons x xs ih =>
      cases b with
      | nil => simp [cmpList] at hab
      | cons y ys =>
        cases d with
        | nil => simp [cmpList] at hbd
        | cons z zs =>
          rw [show cmpList c (x :: xs) (y :: ys) = (c x y).then (cmpList c xs ys) from rfl,
            Ordering.then_ne_gt] at hab
          rw [show cmpList c (y :: ys) (z :: zs) = (c y z).then (cmpList c ys zs) from rfl,
            Ordering.then_ne_gt] at hbd
          rw [show cmpList c (x :: xs) (z :: zs) = (c x z).then (cmpList c xs zs) from rfl,
            Ordering.then_ne_gt]
          rcases hab with hab | ⟨hab, hab₂⟩ <;> rcases hbd with hbd | ⟨hbd, hbd₂⟩
          · exact Or.inl (h.ltTrans hab hbd)
          · exact Or.inl (h.ltEqTrans hab hbd)
          · exact Or.inl (h.eqLtTrans hab hbd)
          · exact Or.inr ⟨h.eqTrans hab hbd, ih hab₂ hbd₂⟩

theorem lawCmp_cmpRev {α : Type} {c : α → α → Ordering} (h : LawCmp c) :
    LawCmp (cmpRev c) where
  symm a b := h.symm b a
  leTrans {_ _ _} hab hbd := h.leTrans hbd hab

theorem lawCmp_cmpProd {α β : Type} {c₁ : α → α → Ordering} {c₂ : β → β → Ordering}
    (h₁ : LawCmp c₁) (h₂ : LawCmp c₂) : LawCmp (cmpProd c₁ c₂) :=
  lawCmp_cmpLex (lawCmp_cmpBy h₁ Prod.fst) (lawCmp_cmpBy h₂ Prod.snd)

theorem lawCmp_cmpSum {α β : Type} {c₁ : α → α → Ordering} {c₂ : β → β → Ordering}
    (h₁ : LawCmp c₁) (h₂ : LawCmp c₂) : LawCmp (cmpSum c₁ c₂) where
  symm a b := by
    cases a <;> cases b
    · exact h₁.symm _ _
    · rfl
    · rfl
    · exact h₂.symm _ _
  leTrans {a b d} hab hbd := by
    cases a <;> cases b <;> cases d <;> simp_all [cmpSum]
    · exact h₁.leTrans hab hbd
    · exact h₂.leTrans hab hbd

theorem lawCmp_cmpChar : LawCmp cmpChar :=
  lawCmp_comap lawCmp_cmpOfLt Char.toNat

theorem lawCmp_cmpStr : LawCmp cmpStr :=
  lawCmp_cmpList lawCmp_cmpChar

theorem lawCmp_cmpNat : LawCmp cmpNat :=
  lawCmp_cmpOfLt

theorem lawCmp_cmpRat : LawCmp cmpRat :=
  lawCmp_cmpOfLt

/-! ### Data model (`code_context_menus.rs`) -/

/-- Model of `fuzzy::StringMatch`: one scored fuzzy-match result. -/
structure StringMatch where
  candidate_id : Nat
  score : Rat
  positions : List Nat
  string : Str
deriving DecidableEq, Repr

/-- Model of `language::CodeLabel` (the fields the menu reads): display text and
the half-open `filter_range` into it. -/
structure CodeLabel where
  text : Str
  filter_range : Nat × Nat
deriving DecidableEq, Repr

/-- Model of `CodeLabel::filter_text()`: the slice of `text` at `filter_range`. -/
def CodeLabel.filter_text (l : CodeLabel) : Str :=
  (l.text.drop l.filter_range.1).take (l.filter_range.2 - l.filter_range.1)

/-- Model of `project::Completion`, restricted to the fields this menu reads.
`sort_text` models `lsp_completion.sort_text`; `sort_key` models the
value of `Completion::sort_key()`.  Modelled from the spec: the
`project` crate's `Completion::sort_key()` body is not under `src/`,
and the spec describes it only as "a deterministic candidate tie-break
key" of type `(usize, &str)`, so it is carried here as a stored field
of that shape. -/
structure Completion where
  new_text : Str
  label : CodeLabel
  sort_text : Option Str
  sort_key : Nat × Str
  resolved : Bool
deriving DecidableEq, Repr

/-- Fallback used to model the (panicking) slice index
`completions[mat.candidate_id]`; every run of the real code only ever
indexes in bounds. -/
def defaultCompletion : Completion :=
  { new_text := [], label := { text := [], filter_range := (0, 0) },
    sort_text := none, sort_key := (0, []), resolved := false }

/-- Model of `crate::InlineCompletionMenuHint` (opaque to this menu beyond its
provider name and preview text). -/
structure InlineCompletionMenuHint where
  provider_name : Str
  preview : Str
deriving DecidableEq, Repr

/-- Model of `CompletionEntry`: the closed tagged union of menu lines. -/
inductive CompletionEntry where
  | Match (m : StringMatch)
  | InlineCompletionHint (hint : InlineCompletionMenuHint)
deriving DecidableEq, Repr

/-- Model of `CompletionsMenu` state (scroll handle, buffer handle and anchor
position are opaque GUI handles never read by the verified logic and
are omitted). -/
structure CompletionsMenu where
  id : Nat
  sort_completions : Bool
  completions : List Completion
  match_candidates : List Str
  entries : List CompletionEntry
  selected_item : Nat
  resolve_completions : Bool
  show_completion_documentation : Bool
deriving DecidableEq, Repr

/-- Model of `CompletionsMenu::new`. -/
def CompletionsMenu.new (id : Nat) (sort_completions : Bool)
    (show_completion_documentation : Bool) (completions : List Completion) :
    CompletionsMenu :=
  { id := id
    sort_completions := sort_completions
    completions := completions
    match_candidates := completions.map (fun completion => completion.label.filter_text)
    entries := []
    selected_item := 0
    resolve_completions := true
    show_completion_documentation := show_completion_documentation }

/-- Model of `CompletionsMenu::new_snippet_choices`: builds the menu directly
from literal snippet choices, each pre-resolved, scored `1.0`, with
resolution and documentation display disabled. -/
def CompletionsMenu.new_snippet_choices (id : Nat) (sort_completions : Bool)
    (choices : List Str) : CompletionsMenu :=
  { id := id
    sort_completions := sort_completions
    completions := choices.map (fun choice =>
      { new_text := choice
        label := { text := choice, filter_range := (0, 0) }
        sort_text := none
        sort_key := (2, [])
        resolved := true })
    match_candidates := choices
    entries := choices.enum.map (fun p =>
      CompletionEntry.Match
        { candidate_id := p.1, score := 1, positions := [], string := p.2 })
    selected_item := 0
    resolve_completions := false
    show_completion_documentation := false }

/-- Model of `CompletionsMenu::visible`. -/
def CompletionsMenu.visible (m : CompletionsMenu) : Bool :=
  !m.entries.isEmpty

/-- Model of `CompletionsMenu::select_first` (selection state only; the scroll
request and the resolve-on-select call do not change menu state). -/
def CompletionsMenu.select_first (m : CompletionsMenu) : CompletionsMenu :=
  { m with selected_item := 0 }

/-- Model of `CompletionsMenu::select_prev`. -/
def CompletionsMenu.select_prev (m : CompletionsMenu) : CompletionsMenu :=
  { m with selected_item :=
      if m.selected_item > 0 then m.selected_item - 1 else m.entries.length - 1 }

/-- Model of `CompletionsMenu::select_next`. -/
def CompletionsMenu.select_next (m : CompletionsMenu) : CompletionsMenu :=
  { m with selected_item :=
      if m.selected_item + 1 < m.entries.length then m.selected_item + 1 else 0 }

/-- Model of `CompletionsMenu::select_last`. -/
def CompletionsMenu.select_last (m : CompletionsMenu) : CompletionsMenu :=
  { m with selected_item := m.entries.length - 1 }

/-- Model of `CompletionsMenu::show_inline_completion_hint`: replace the hint in
place when one is already first, otherwise push it at the front; the
selection is forced to `0`. -/
def CompletionsMenu.show_inline_completion_hint (m : CompletionsMenu)
    (hint : InlineCompletionMenuHint) : CompletionsMenu :=
  let h := CompletionEntry.InlineCompletionHint hint
  let entries :=
    match m.entries.head? with
    | some (CompletionEntry.InlineCompletionHint _) => m.entries.set 0 h
    | _ => h :: m.entries
  { m with entries := entries, selected_item := 0 }

/-- Modelled from the spec: `CompletionProvider::resolve_completions`
(the provider implementation lives outside `src/`).  Per §4.3 the
resolve protocol is idempotent: "an already-resolved or
already-in-flight candidate issues no new request".  The model returns
the indices for which an underlying resolve request is actually issued
to the candidate source: exactly the in-range, not-yet-resolved ones. -/
def providerResolve (completions : List Completion) (indices : List Nat) : List Nat :=
  indices.filter (fun i =>
    match completions[i]? with
    | some completion => !completion.resolved
    | none => false)

/-- Model of `CompletionsMenu::resolve_selected_completion`, abstracted to the
list of underlying resolve requests it causes: nothing when resolution
is disabled, no provider is attached, or the selection is the inline
hint; otherwise whatever the provider issues for the selected
candidate's index. -/
def CompletionsMenu.resolve_selected_completion (hasProvider : Bool)
    (m : CompletionsMenu) : List Nat :=
  if !m.resolve_completions then []
  else if !hasProvider then []
  else
    match m.entries[m.selected_item]? with
    | some (CompletionEntry.Match entry) => providerResolve m.completions [entry.candidate_id]
    | some (CompletionEntry.InlineCompletionHint _) => []
    | none => []

/-! ### Word splitting and the first-character post-filter -/

/-- Modelled from the spec: the word boundary of `split_words`
(`crates/editor/src/editor.rs`, not under `src/`).  Per §4.1 words are
split "at case transitions and underscores"; the `test_split_words`
cases in `src/crates/editor/src/editor_tests.rs` pin the rule down: a
boundary falls between a non-alphanumeric character and an
alphanumeric one, and between a lowercase and an uppercase letter, so
underscores and punctuation stick to the end of the preceding word. -/
def wordBoundary (prev c : Char) : Bool :=
  (!prev.isAlphanum && c.isAlphanum) || (prev.isLower && c.isUpper)

/-- Modelled from the spec: worker of `split_words`.  `acc` is the
current word reversed, `prev` its most recent character. -/
def splitWordsGo (prev : Char) (acc : List Char) : List Char → List (List Char)
  | [] => [acc.reverse]
  | c :: rest =>
    if wordBoundary prev c then acc.reverse :: splitWordsGo c [c] rest
    else splitWordsGo c (c :: acc) rest

/-- Modelled from the spec: `split_words` (see `wordBoundary`). -/
def splitWords : Str → List Str
  | [] => []
  | c :: rest => splitWordsGo c [c] rest

theorem splitWords_test₁ :
    splitWords [ 'H', 'e', 'l', 'l', 'o', 'W', 'o', 'r', 'l', 'd'] =
      [[ 'H', 'e', 'l', 'l', 'o'], [ 'W', 'o', 'r', 'l', 'd']] := by decide

theorem splitWords_test₂ :
    splitWords [ 'h', 'e', 'l', 'l', 'o', '_', 'w', 'o', 'r', 'l', 'd'] =
      [[ 'h', 'e', 'l', 'l', 'o', '_'], [ 'w', 'o', 'r', 'l', 'd']] := by decide

theorem splitWords_test₃ :
    splitWords [ '_', 'h', 'i', '_', 'w', '_'] =
      [[ '_'], [ 'h', 'i', '_'], [ 'w', '_']] := by decide

theorem splitWords_test₄ :
    splitWords [ ':', 'd', 'o', '_', 'i', 't'] =
      [[ ':'], [ 'd', 'o', '_'], [ 'i', 't']] := by decide

/-- Rust `char::to_lowercase`, modelled at ASCII granularity as a
one-character expansion (for every character the claims exercise,
`to_lowercase` yields exactly one code point). -/
def lowerChar (c : Char) : List Char :=
  [c.toLower]

/-- The body of the retain closure in `CompletionsMenu::filter`: the
word survives when its lowercased character stream, zipped against the
lowercased first query character, agrees pointwise. -/
def wordMatchesQueryStart (query_start : Char) (word : Str) : Bool :=
  ((word.flatMap lowerChar).zip (lowerChar query_start)).all (fun p => p.1 == p.2)

/-- The retain predicate of `CompletionsMenu::filter`: some word of the
match's display string starts (case-folded) like the query. -/
def retainByFirstChar (query_start : Char) (s : Str) : Bool :=
  (splitWords s).any (wordMatchesQueryStart query_start)

/-! ### Ranking (`MatchScore`) and `CompletionsMenu::filter` -/

/-- The `MatchScore` enum local to `CompletionsMenu::filter`.  The
`score` fields hold the raw fuzzy score; the `Reverse(OrderedFloat(..))`
wrapper of the source lives in the comparator (`cmpRev cmpRat`). -/
inductive MatchScore where
  | Strong (score : Rat) (sort_text : Option Str) (sort_key : Nat × Str)
  | Weak (sort_text : Option Str) (score : Rat) (sort_key : Nat × Str)
deriving DecidableEq, Repr

/-- Comparator on `(usize, &str)` sort keys. -/
def cmpKey : Nat × Str → Nat × Str → Ordering :=
  cmpProd cmpNat cmpStr

/-- Rust's derived `Ord` on `MatchScore`: `Strong` before `Weak`;
within `Strong`, descending score, then ascending `sort_text` with
`None` least, then the sort key; within `Weak`, ascending `sort_text`
first, then descending score, then the sort key. -/
def cmpMatchScore : MatchScore → MatchScore → Ordering
  | .Strong s₁ t₁ k₁, .Strong s₂ t₂ k₂ =>
    (cmpRev cmpRat s₁ s₂).then ((cmpOption cmpStr t₁ t₂).then (cmpKey k₁ k₂))
  | .Strong _ _ _, .Weak _ _ _ => .lt
  | .Weak _ _ _, .Strong _ _ _ => .gt
  | .Weak t₁ s₁ k₁, .Weak t₂ s₂ k₂ =>
    (cmpOption cmpStr t₁ t₂).then ((cmpRev cmpRat s₁ s₂).then (cmpKey k₁ k₂))

/-- Field comparator of the `Strong` variant. -/
def cmpStrongFields : Rat × Option Str × (Nat × Str) → Rat × Option Str × (Nat × Str) → Ordering :=
  cmpLex (cmpBy (cmpRev cmpRat) (fun x => x.1))
    (cmpLex (cmpBy (cmpOption cmpStr) (fun x => x.2.1)) (cmpBy cmpKey (fun x => x.2.2)))

/-- Field comparator of the `Weak` variant. -/
def cmpWeakFields : Option Str × Rat × (Nat × Str) → Option Str × Rat × (Nat × Str) → Ordering :=
  cmpLex (cmpBy (cmpOption cmpStr) (fun x => x.1))
    (cmpLex (cmpBy (cmpRev cmpRat) (fun x => x.2.1)) (cmpBy cmpKey (fun x => x.2.2)))

/-- Repackaging of a `MatchScore` as a sum of its field tuples, in
variant declaration order. -/
def matchScoreFields : MatchScore → (Rat × Option Str × (Nat × Str)) ⊕ (Option Str × Rat × (Nat × Str))
  | .Strong s t k => .inl (s, t, k)
  | .Weak t s k => .inr (t, s, k)

theorem cmpMatchScore_eq_cmpSum (a b : MatchScore) :
    cmpMatchScore a b =
      cmpSum cmpStrongFields cmpWeakFields (matchScoreFields a) (matchScoreFields b) := by
  cases a <;> cases b <;> rfl

theorem lawCmp_cmpKey : LawCmp cmpKey :=
  lawCmp_cmpProd lawCmp_cmpNat lawCmp_cmpStr

theorem lawCmp_cmpStrongFields : LawCmp cmpStrongFields :=
  lawCmp_cmpLex (lawCmp_cmpBy (lawCmp_cmpRev lawCmp_cmpRat) _)
    (lawCmp_cmpLex (lawCmp_cmpBy (lawCmp_cmpOption lawCmp_cmpStr) _) (lawCmp_cmpBy lawCmp_cmpKey _))

theorem lawCmp_cmpWeakFields : LawCmp cmpWeakFields :=
  lawCmp_cmpLex (lawCmp_cmpBy (lawCmp_cmpOption lawCmp_cmpStr) _)
    (lawCmp_cmpLex (lawCmp_cmpBy (lawCmp_cmpRev lawCmp_cmpRat) _) (lawCmp_cmpBy lawCmp_cmpKey _))

theorem lawCmp_cmpMatchScore : LawCmp cmpMatchScore where
  symm a b := by
    rw [cmpMatchScore_eq_cmpSum, cmpMatchScore_eq_cmpSum]
    exact (lawCmp_cmpSum lawCmp_cmpStrongFields lawCmp_cmpWeakFields).symm _ _
  leTrans {a b d} hab hbd := by
    rw [cmpMatchScore_eq_cmpSum] at hab hbd ⊢
    exact (lawCmp_cmpSum lawCmp_cmpStrongFields lawCmp_cmpWeakFields).leTrans hab hbd

/-- The sort key computed inside `CompletionsMenu::filter`: look up the
match's candidate and bucket by the `0.2` score threshold (the `f64`
literal `0.2` modelled as the rational `1/5`). -/
def matchScoreOf (completions : List Completion) (mat : StringMatch) : MatchScore :=
  if mat.score ≥ mkRat 1 5 then
    MatchScore.Strong mat.score (completions.getD mat.candidate_id defaultCompletion).sort_text
      (completions.getD mat.candidate_id defaultCompletion).sort_key
  else
    MatchScore.Weak (completions.getD mat.candidate_id defaultCompletion).sort_text mat.score
      (completions.getD mat.candidate_id defaultCompletion).sort_key

/-- The boolean `≤` the sort step uses, derived from the key. -/
def matchLe (completions : List Completion) (a b : StringMatch) : Bool :=
  decide (cmpMatchScore (matchScoreOf completions a) (matchScoreOf completions b) ≠ Ordering.gt)

/-- First stage of `CompletionsMenu::filter`: with a query, the
matches are whatever the fuzzy matcher (`fuzzy::match_strings`, an
external collaborator) produced, abstracted here as the `fuzzyResult`
argument; with no query, every candidate is enumerated unscored in
source order. -/
def prefilterMatches (m : CompletionsMenu) (query : Option Str)
    (fuzzyResult : List StringMatch) : List StringMatch :=
  match query with
  | some _ => fuzzyResult
  | none =>
    m.match_candidates.enum.map (fun p =>
      { candidate_id := p.1, score := 0, positions := [], string := p.2 })

/-- Second stage of `CompletionsMenu::filter`: when the query is
non-empty, retain only matches whose display string has a word whose
start matches the query's first character, case-folded. -/
def retainMatches (query : Option Str) (mats : List StringMatch) : List StringMatch :=
  match query with
  | some q =>
    match q.head? with
    | some query_start => mats.filter (fun mat => retainByFirstChar query_start mat.string)
    | none => mats
  | none => mats

/-- Third stage of `CompletionsMenu::filter`: sort by `MatchScore` when
sorting is enabled. -/
def sortMatches (sort_completions : Bool) (completions : List Completion)
    (mats : List StringMatch) : List StringMatch :=
  if sort_completions then mats.mergeSort (matchLe completions) else mats

/-- The zero-or-one-element prefix that `CompletionsMenu::filter` keeps
in front of the rebuilt entries: the previously shown inline hint, if
one was first. -/
def hintCarry (entries : List CompletionEntry) : List CompletionEntry :=
  match entries.head? with
  | some (CompletionEntry.InlineCompletionHint hint) =>
    [CompletionEntry.InlineCompletionHint hint]
  | _ => []

/-- Model of `CompletionsMenu::filter`: the three match stages, then `entries`
is rebuilt from the matches with a pre-existing inline hint re-inserted
at index 0, and the selection is reset. -/
def CompletionsMenu.filter (m : CompletionsMenu) (query : Option Str)
    (fuzzyResult : List StringMatch) : CompletionsMenu :=
  let mats :=
    sortMatches m.sort_completions m.completions
      (retainMatches query (prefilterMatches m query fuzzyResult))
  { m with entries := hintCarry m.entries ++ mats.map CompletionEntry.Match,
           selected_item := 0 }

/-- The matches of a menu's entries, in order (the inline hint, if any,
is not a match). -/
def menuMatches (m : CompletionsMenu) : List StringMatch :=
  m.entries.filterMap (fun e =>
    match e with
    | CompletionEntry.Match mat => some mat
    | CompletionEntry.InlineCompletionHint _ => none)

/-! ### Code actions and tasks -/

/-- Model of `task::TaskSourceKind` (opaque source-kind tag). -/
structure TaskSourceKind where
  tag : Nat
deriving DecidableEq, Repr

/-- Model of `task::ResolvedTask` (the field this menu reads). -/
structure ResolvedTask where
  resolved_label : Str
deriving DecidableEq, Repr

/-- Model of `project::CodeAction` (the field this menu reads). -/
structure CodeAction where
  title : Str
deriving DecidableEq, Repr

/-- Modelled from the spec: `crate::ResolvedTasks` (declared in
`editor.rs`, not under `src/`); per §3 a task collection is an ordered
sequence of `(source_kind, resolved_task)` pairs, held in
`templates`. -/
structure ResolvedTasks where
  templates : List (TaskSourceKind × ResolvedTask)
deriving DecidableEq, Repr

/-- Model of `AvailableCodeAction` (the provider handle is an opaque id). -/
structure AvailableCodeAction where
  excerpt_id : Nat
  action : CodeAction
  provider : Nat
deriving DecidableEq, Repr

/-- Model of `CodeActionContents`: a virtual concatenation of the two
independently owned collections. -/
structure CodeActionContents where
  tasks : Option ResolvedTasks
  actions : Option (List AvailableCodeAction)
deriving DecidableEq, Repr

/-- Model of `CodeActionsItem`. -/
inductive CodeActionsItem where
  | Task (kind : TaskSourceKind) (task : ResolvedTask)
  | CodeAction (excerpt_id : Nat) (action : CodeAction) (provider : Nat)
deriving DecidableEq, Repr

/-- Model of `CodeActionContents::len`. -/
def CodeActionContents.len (c : CodeActionContents) : Nat :=
  match c.tasks, c.actions with
  | some tasks, some actions => actions.length + tasks.templates.length
  | some tasks, none => tasks.templates.length
  | none, some actions => actions.length
  | none, none => 0

/-- Model of `CodeActionContents::is_empty`. -/
def CodeActionContents.is_empty (c : CodeActionContents) : Bool :=
  match c.tasks, c.actions with
  | some tasks, some actions => actions.isEmpty && tasks.templates.isEmpty
  | some tasks, none => tasks.templates.isEmpty
  | none, some actions => actions.isEmpty
  | none, none => true

/-- Model of `CodeActionContents::iter`: tasks first, then actions. -/
def CodeActionContents.iter (c : CodeActionContents) : List CodeActionsItem :=
  (match c.tasks with
   | some tasks => tasks.templates.map (fun p => CodeActionsItem.Task p.1 p.2)
   | none => []) ++
  (match c.actions with
   | some actions =>
     actions.map (fun available =>
       CodeActionsItem.CodeAction available.excerpt_id available.action available.provider)
   | none => [])

/-- Model of `CodeActionContents::get`: delegate the first `tasks.len()` indices
to the tasks, the remainder to the actions with an offset. -/
def CodeActionContents.get (c : CodeActionContents) (index : Nat) : Option CodeActionsItem :=
  match c.tasks, c.actions with
  | some tasks, some actions =>
    if index < tasks.templates.length then
      (tasks.templates.get? index).map (fun p => CodeActionsItem.Task p.1 p.2)
    else
      (actions.get? (index - tasks.templates.length)).map (fun available =>
        CodeActionsItem.CodeAction available.excerpt_id available.action available.provider)
  | some tasks, none =>
    (tasks.templates.get? index).map (fun p => CodeActionsItem.Task p.1 p.2)
  | none, some actions =>
    (actions.get? index).map (fun available =>
      CodeActionsItem.CodeAction available.excerpt_id available.action available.provider)
  | none, none => none

/-- The task list of a contents value (empty when absent). -/
def CodeActionContents.taskList (c : CodeActionContents) : List (TaskSourceKind × ResolvedTask) :=
  match c.tasks with
  | some tasks => tasks.templates
  | none => []

/-- The action list of a contents value (empty when absent). -/
def CodeActionContents.actionList (c : CodeActionContents) : List AvailableCodeAction :=
  match c.actions with
  | some actions => actions
  | none => []

/-- Model of `CodeActionsMenu` (scroll handle and buffer handle omitted as
opaque GUI state). -/
structure CodeActionsMenu where
  actions : CodeActionContents
  selected_item : Nat
  deployed_from_indicator : Option Nat
deriving DecidableEq, Repr

/-- Model of `CodeActionsMenu::visible`. -/
def CodeActionsMenu.visible (m : CodeActionsMenu) : Bool :=
  !m.actions.is_empty

/-- Model of `CodeActionsMenu::select_first`. -/
def CodeActionsMenu.select_first (m : CodeActionsMenu) : CodeActionsMenu :=
  { m with selected_item := 0 }

/-- Model of `CodeActionsMenu::select_prev`. -/
def CodeActionsMenu.select_prev (m : CodeActionsMenu) : CodeActionsMenu :=
  { m with selected_item :=
      if m.selected_item > 0 then m.selected_item - 1 else m.actions.len - 1 }

/-- Model of `CodeActionsMenu::select_next`. -/
def CodeActionsMenu.select_next (m : CodeActionsMenu) : CodeActionsMenu :=
  { m with selected_item :=
      if m.selected_item + 1 < m.actions.len then m.selected_item + 1 else 0 }

/-- Model of `CodeActionsMenu::select_last`. -/
def CodeActionsMenu.select_last (m : CodeActionsMenu) : CodeActionsMenu :=
  { m with selected_item := m.actions.len - 1 }

/-! ### The `CodeContextMenu` dispatcher -/

/-- Model of `CodeContextMenu`: which concrete menu is active. -/
inductive CodeContextMenu where
  | Completions (menu : CompletionsMenu)
  | CodeActions (menu : CodeActionsMenu)
deriving DecidableEq, Repr

/-- Model of `CodeContextMenu::visible`. -/
def CodeContextMenu.visible : CodeContextMenu → Bool
  | .Completions menu => menu.visible
  | .CodeActions menu => menu.visible

/-- Model of `CodeContextMenu::select_first`: dispatch when visible and report
handled; otherwise leave the state alone and report not handled. -/
def CodeContextMenu.select_first (m : CodeContextMenu) : CodeContextMenu × Bool :=
  if m.visible then
    (match m with
     | .Completions menu => .Completions menu.select_first
     | .CodeActions menu => .CodeActions menu.select_first, true)
  else (m, false)

/-- Model of `CodeContextMenu::select_prev`. -/
def CodeContextMenu.select_prev (m : CodeContextMenu) : CodeContextMenu × Bool :=
  if m.visible then
    (match m with
     | .Completions menu => .Completions menu.select_prev
     | .CodeActions menu => .CodeActions menu.select_prev, true)
  else (m, false)

/-- Model of `CodeContextMenu::select_next`. -/
def CodeContextMenu.select_next (m : CodeContextMenu) : CodeContextMenu × Bool :=
  if m.visible then
    (match m with
     | .Completions menu => .Completions menu.select_next
     | .CodeActions menu => .CodeActions menu.select_next, true)
  else (m, false)

/-- Model of `CodeContextMenu::select_last`. -/
def CodeContextMenu.select_last (m : CodeContextMenu) : CodeContextMenu × Bool :=
  if m.visible then
    (match m with
     | .Completions menu => .Completions menu.select_last
     | .CodeActions menu => .CodeActions menu.select_last, true)
  else (m, false)

/-! ### Helper lemmas about `filter` -/

theorem filterMap_match_hintCarry (es : List CompletionEntry) :
    (hintCarry es).filterMap (fun e =>
      match e with
      | CompletionEntry.Match mat => some mat
      | CompletionEntry.InlineCompletionHint _ => none) = [] := by
  cases es with
  | nil => rfl
  | cons e es => cases e <;> rfl

theorem menuMatches_filter (m : CompletionsMenu) (query : Option Str)
    (fuzzyResult : List StringMatch) :
    menuMatches (m.filter query fuzzyResult) =
      sortMatches m.sort_completions m.completions
        (retainMatches query (prefilterMatches m query fuzzyResult)) := by
  show ((hintCarry m.entries ++ _).filterMap _) = _
  rw [List.filterMap_append, filterMap_match_hintCarry, List.nil_append,
    List.filterMap_map]
  exact List.filterMap_eq_map _ ▸ List.map_id _

theorem mem_menuMatches_filter (m : CompletionsMenu) (query : Option Str)
    (fuzzyResult : List StringMatch) (mat : StringMatch) :
    mat ∈ menuMatches (m.filter query fuzzyResult) ↔
      mat ∈ retainMatches query (prefilterMatches m query fuzzyResult) := by
  rw [menuMatches_filter]
  unfold sortMatches
  by_cases h : m.sort_completions
  · rw [if_pos h]
    exact (List.mergeSort_perm _ _).mem_iff
  · rw [if_neg h]

theorem matchLe_trans (comps : List Completion) (a b d : StringMatch)
    (hab : matchLe comps a b) (hbd : matchLe comps b d) : matchLe comps a d := by
  simp only [matchLe, decide_eq_true_eq] at hab hbd ⊢
  exact lawCmp_cmpMatchScore.leTrans hab hbd

theorem matchLe_total (comps : List Completion) (a b : StringMatch) :
    matchLe comps a b || matchLe comps b a := by
  simp only [matchLe, Bool.or_eq_true, decide_eq_true_eq]
  exact lawCmp_cmpMatchScore.total _ _

theorem pairwise_menuMatches (m : CompletionsMenu) (query : Option Str)
    (fuzzyResult : List StringMatch) (hsort : m.sort_completions = true) :
    (menuMatches (m.filter query fuzzyResult)).Pairwise
      (fun a b => matchLe m.completions a b = true) := by
  rw [menuMatches_filter]
  unfold sortMatches
  rw [hsort, if_pos rfl]
  exact List.sorted_mergeSort (matchLe_trans m.completions) (matchLe_total m.completions) _

/-! ### Claim C1 -/

/-- Claim C1: when `sort_completions` is set, `CompletionsMenu::filter`
orders the entries so that every match with fuzzy score at least `0.2`
(the Strong bucket) appears before every match with score below `0.2`
(the Weak bucket), for every candidate set and query. -/
theorem c1_strong_before_weak (m : CompletionsMenu) (query : Option Str)
    (fuzzyResult : List StringMatch) (hsort : m.sort_completions = true) :
    (menuMatches (m.filter query fuzzyResult)).Pairwise
      (fun a b => mkRat 1 5 ≤ b.score → mkRat 1 5 ≤ a.score) := by
  refine (pairwise_menuMatches m query fuzzyResult hsort).imp ?_
  intro a b hle hb
  by_contra ha
  have hA : matchScoreOf m.completions a =
      MatchScore.Weak (m.completions.getD a.candidate_id defaultCompletion).sort_text
        a.score (m.completions.getD a.candidate_id defaultCompletion).sort_key := by
    unfold matchScoreOf
    rw [if_neg ha]
  have hB : matchScoreOf m.completions b =
      MatchScore.Strong b.score
        (m.completions.getD b.candidate_id defaultCompletion).sort_text
        (m.completions.getD b.candidate_id defaultCompletion).sort_key := by
    unfold matchScoreOf
    rw [if_pos hb]
  rw [matchLe, hA, hB] at hle
  simp [cmpMatchScore] at hle

/-- A menu with one Strong-scoring and one Weak-scoring candidate, used
to exercise the ranking theorems on concrete data. -/
def sampleRankMenu : CompletionsMenu :=
  { id := 0
    sort_completions := true
    completions :=
      [ { new_text := [ 'a', 'b' ]
          label := { text := [ 'a', 'b' ], filter_range := (0, 2) }
          sort_text := some [ 'z' ]
          sort_key := (2, [ 'a', 'b' ])
          resolved := false },
        { new_text := [ 'a', 'c' ]
          label := { text := [ 'a', 'c' ], filter_range := (0, 2) }
          sort_text := none
          sort_key := (2, [ 'a', 'c' ])
          resolved := false } ]
    match_candidates := [[ 'a', 'b' ], [ 'a', 'c' ]]
    entries := []
    selected_item := 0
    resolve_completions := true
    show_completion_documentation := false }

/-- Fuzzy results for `sampleRankMenu`: candidate 0 scores `1/10`
(Weak), candidate 1 scores `9/10` (Strong). -/
def sampleRankResult : List StringMatch :=
  [ { candidate_id := 0, score := mkRat 1 10, positions := [], string := [ 'a', 'b' ] },
    { candidate_id := 1, score := mkRat 9 10, positions := [], string := [ 'a', 'c' ] } ]

theorem c1_strong_before_weak_witness :
    sampleRankMenu.sort_completions = true ∧
      (menuMatches (sampleRankMenu.filter (some [ 'a' ]) sampleRankResult)).Pairwise
        (fun a b => mkRat 1 5 ≤ b.score → mkRat 1 5 ≤ a.score) :=
  ⟨rfl, c1_strong_before_weak sampleRankMenu (some [ 'a' ]) sampleRankResult rfl⟩

/-! ### Claim C2 -/

/-- The claim's reading of "ascending provider sort hint — absent
sorts last": the order on `Option` with `None` greatest. -/
def cmpOptionAbsentLast {α : Type} (c : α → α → Ordering) : Option α → Option α → Ordering
  | none, none => .eq
  | none, some _ => .gt
  | some _, none => .lt
  | some a, some b => c a b

/-- The §4.2 order key stated in the spec's terms, parameterized by the
order used for the optional provider sort hint: Strong bucket (score at
least `0.2`) before Weak, Strong ordered by descending score then hint
then tie-break key, Weak ordered by hint then descending score then
tie-break key. -/
def specMatchCmp (optCmp : Option Str → Option Str → Ordering)
    (completions : List Completion) (a b : StringMatch) : Ordering :=
  let ca := completions.getD a.candidate_id defaultCompletion
  let cb := completions.getD b.candidate_id defaultCompletion
  let bucketA : Nat := if a.score ≥ mkRat 1 5 then 0 else 1
  let bucketB : Nat := if b.score ≥ mkRat 1 5 then 0 else 1
  (cmpNat bucketA bucketB).then
    (if bucketA = 0 then
      (cmpRev cmpRat a.score b.score).then
        ((optCmp ca.sort_text cb.sort_text).then (cmpKey ca.sort_key cb.sort_key))
    else
      (optCmp ca.sort_text cb.sort_text).then
        ((cmpRev cmpRat a.score b.score).then (cmpKey ca.sort_key cb.sort_key)))

/-- Claim C2 formalized, parameterized by the hint order: whenever
sorting is enabled, the matches `CompletionsMenu::filter` produces are
ordered by the §4.2 bucket rule. -/
def bucketOrderHolds (optCmp : Option Str → Option Str → Ordering) : Prop :=
  ∀ (m : CompletionsMenu) (query : Option Str) (fuzzyResult : List StringMatch),
    m.sort_completions = true →
    (menuMatches (m.filter query fuzzyResult)).Pairwise
      (fun a b => specMatchCmp optCmp m.completions a b ≠ .gt)

/-- The spec's comparator with the code's hint order (`None` first)
agrees with the `MatchScore` key the code sorts by. -/
theorem specMatchCmp_absentFirst_eq (completions : List Completion) (a b : StringMatch) :
    specMatchCmp (cmpOption cmpStr) completions a b =
      cmpMatchScore (matchScoreOf completions a) (matchScoreOf completions b) := by
  rcases le_or_lt (mkRat 1 5) a.score with h₁ | h₁ <;>
    rcases le_or_lt (mkRat 1 5) b.score with h₂ | h₂
  · simp only [specMatchCmp, matchScoreOf, if_pos h₁, if_pos h₂]
    rfl
  · simp only [specMatchCmp, matchScoreOf, if_pos h₁, if_neg (not_le_of_gt h₂)]
    rfl
  · simp only [specMatchCmp, matchScoreOf, if_neg (not_le_of_gt h₁), if_pos h₂]
    rfl
  · simp only [specMatchCmp, matchScoreOf, if_neg (not_le_of_gt h₁),
      if_neg (not_le_of_gt h₂)]
    rfl

/-- Two candidates with equal fuzzy score, equal tie-break keys, where
candidate 0 carries no provider sort hint and candidate 1 carries hint
`"b"`; the tie is decided by the hint order alone. -/
def sampleTieMenu : CompletionsMenu :=
  { id := 0
    sort_completions := true
    completions :=
      [ { new_text := [ 'a' ]
          label := { text := [ 'a' ], filter_range := (0, 1) }
          sort_text := none
          sort_key := (2, [ 'a' ])
          resolved := false },
        { new_text := [ 'a' ]
          label := { text := [ 'a' ], filter_range := (0, 1) }
          sort_text := some [ 'b' ]
          sort_key := (2, [ 'a' ])
          resolved := false } ]
    match_candidates := [[ 'a' ], [ 'a' ]]
    entries := []
    selected_item := 0
    resolve_completions := true
    show_completion_documentation := false }

/-- Equal-score Strong fuzzy results for `sampleTieMenu`. -/
def sampleTieResult : List StringMatch :=
  [ { candidate_id := 0, score := mkRat 1 2, positions := [], string := [ 'a' ] },
    { candidate_id := 1, score := mkRat 1 2, positions := [], string := [ 'a' ] } ]

theorem sampleTie_menuMatches :
    menuMatches (sampleTieMenu.filter (some [ 'a' ]) sampleTieResult) = sampleTieResult := by
  rw [menuMatches_filter]
  have hr : retainMatches (some [ 'a' ])
      (prefilterMatches sampleTieMenu (some [ 'a' ]) sampleTieResult) = sampleTieResult := by
    decide
  rw [hr]
  show sortMatches true sampleTieMenu.completions sampleTieResult = sampleTieResult
  unfold sortMatches
  rw [if_pos rfl]
  exact List.mergeSort_of_sorted (by decide)

/-- Counterexample to claim C2 as stated: on `sampleTieMenu` the code
keeps candidate 0 (no hint) first, because Rust's `Option` order puts
`None` before `Some`, while the claim's "absent sorts last" demands
candidate 1 first. -/
theorem c2_bucket_order_counterexample : ¬ bucketOrderHolds (cmpOptionAbsentLast cmpStr) := by
  intro h
  have hp := h sampleTieMenu (some [ 'a' ]) sampleTieResult rfl
  rw [sampleTie_menuMatches] at hp
  have hrel := (List.pairwise_cons.mp hp).1 _ (List.mem_cons_self _ _)
  exact hrel (by decide)

/-- Claim C2 as amended: within the buckets produced when sorting is
enabled, Strong matches are ordered by descending fuzzy score, then
ascending provider sort hint with an absent hint sorting FIRST (not
last), then the deterministic candidate tie-break key; Weak matches by
ascending provider sort hint (absent first), then descending fuzzy
score, then the same tie-break key. -/
theorem c2_bucket_order_amended : bucketOrderHolds (cmpOption cmpStr) := by
  intro m query fuzzyResult hsort
  refine (pairwise_menuMatches m query fuzzyResult hsort).imp ?_
  intro a b hle
  rw [specMatchCmp_absentFirst_eq]
  simpa [matchLe, decide_eq_true_eq] using hle

theorem c2_bucket_order_amended_witness :
    sampleRankMenu.sort_completions = true ∧
      (menuMatches (sampleRankMenu.filter (some [ 'a' ]) sampleRankResult)).Pairwise
        (fun a b => specMatchCmp (cmpOption cmpStr) sampleRankMenu.completions a b ≠ .gt) :=
  ⟨rfl, c2_bucket_order_amended sampleRankMenu (some [ 'a' ]) sampleRankResult rfl⟩

/-! ### Claim C3 -/

theorem splitWordsGo_ne_nil (rest : List Char) :
    ∀ (prev : Char) (acc : List Char), acc ≠ [] →
      ∀ w ∈ splitWordsGo prev acc rest, w ≠ [] := by
  induction rest with
  | nil =>
    intro prev acc hacc w hw
    simp only [splitWordsGo, List.mem_singleton] at hw
    subst hw
    simpa using hacc
  | cons c rest ih =>
    intro prev acc hacc w hw
    simp only [splitWordsGo] at hw
    by_cases hb : wordBoundary prev c
    · rw [if_pos hb] at hw
      rcases List.mem_cons.mp hw with hw | hw
      · subst hw
        simpa using hacc
      · exact ih c [c] (by simp) w hw
    · rw [if_neg hb] at hw
      exact ih c (c :: acc) (by simp) w hw

theorem splitWords_ne_nil (s : Str) : ∀ w ∈ splitWords s, w ≠ [] := by
  cases s with
  | nil => intro w hw; simp [splitWords] at hw
  | cons c rest => exact splitWordsGo_ne_nil rest c [c] (by simp)

theorem wordMatchesQueryStart_cons (query_start c : Char) (cs : List Char) :
    wordMatchesQueryStart query_start (c :: cs) = true ↔
      c.toLower = query_start.toLower := by
  simp [wordMatchesQueryStart, lowerChar]

/-- The retain predicate holds exactly when some word of the display
string starts, case-folded, like the query's first character. -/
theorem retainByFirstChar_iff (query_start : Char) (s : Str) :
    retainByFirstChar query_start s = true ↔
      ∃ w ∈ splitWords s, ∃ c cs, w = c :: cs ∧ c.toLower = query_start.toLower := by
  simp only [retainByFirstChar, List.any_eq_true]
  constructor
  · rintro ⟨w, hw, hmatch⟩
    cases w with
    | nil => exact absurd rfl (splitWords_ne_nil s [] hw)
    | cons c cs =>
      exact ⟨c :: cs, hw, c, cs, rfl, (wordMatchesQueryStart_cons query_start c cs).mp hmatch⟩
  · rintro ⟨w, hw, c, cs, rfl, hc⟩
    exact ⟨c :: cs, hw, (wordMatchesQueryStart_cons query_start c cs).mpr hc⟩

/-- Claim C3: for every candidate set and non-empty query, every match
retained by `CompletionsMenu::filter` has a display string with a word
whose case-folded first character equals the case-folded first
character of the query, and every fuzzy match with no such word is
discarded. -/
theorem c3_first_char_word_filter (m : CompletionsMenu) (q : Str) (q0 : Char)
    (fuzzyResult : List StringMatch) (hq : q.head? = some q0) :
    (∀ mat ∈ menuMatches (m.filter (some q) fuzzyResult),
      ∃ w ∈ splitWords mat.string, ∃ c cs, w = c :: cs ∧ c.toLower = q0.toLower) ∧
    (∀ mat ∈ fuzzyResult,
      (¬ ∃ w ∈ splitWords mat.string, ∃ c cs, w = c :: cs ∧ c.toLower = q0.toLower) →
      mat ∉ menuMatches (m.filter (some q) fuzzyResult)) := by
  have hretain : retainMatches (some q) fuzzyResult =
      fuzzyResult.filter (fun mat => retainByFirstChar q0 mat.string) := by
    simp only [retainMatches, hq]
  have hmem : ∀ mat, mat ∈ menuMatches (m.filter (some q) fuzzyResult) ↔
      mat ∈ fuzzyResult ∧ retainByFirstChar q0 mat.string = true := by
    intro mat
    rw [mem_menuMatches_filter]
    have hpre : prefilterMatches m (some q) fuzzyResult = fuzzyResult := rfl
    rw [hpre, hretain]
    exact List.mem_filter
  constructor
  · intro mat hmat
    exact (retainByFirstChar_iff q0 mat.string).mp ((hmem mat).mp hmat).2
  · intro mat _ hno hmat
    exact hno ((retainByFirstChar_iff q0 mat.string).mp ((hmem mat).mp hmat).2)

theorem c3_first_char_word_filter_witness :
    ([ 'a' ] : Str).head? = some 'a' ∧
      ((∀ mat ∈ menuMatches (sampleTieMenu.filter (some [ 'a' ]) sampleTieResult),
        ∃ w ∈ splitWords mat.string, ∃ c cs, w = c :: cs ∧ c.toLower = Char.toLower 'a') ∧
      (∀ mat ∈ sampleTieResult,
        (¬ ∃ w ∈ splitWords mat.string, ∃ c cs, w = c :: cs ∧ c.toLower = Char.toLower 'a') →
        mat ∉ menuMatches (sampleTieMenu.filter (some [ 'a' ]) sampleTieResult))) :=
  ⟨rfl, c3_first_char_word_filter sampleTieMenu [ 'a' ] 'a' sampleTieResult rfl⟩

/-! ### Claim C4 -/

/-- Claim C4: calling `resolve_selected_completion` twice for a
selected candidate whose `resolved` flag is set, with resolution
enabled and a provider attached, issues at most one underlying resolve
call to the candidate source (in fact none). -/
theorem c4_resolve_idempotent (m : CompletionsMenu) (mat : StringMatch)
    (completion : Completion)
    (hres : m.resolve_completions = true)
    (hsel : m.entries[m.selected_item]? = some (CompletionEntry.Match mat))
    (hcomp : m.completions[mat.candidate_id]? = some completion)
    (hresolved : completion.resolved = true) :
    (m.resolve_selected_completion true).length +
      (m.resolve_selected_completion true).length ≤ 1 := by
  have hnone : m.resolve_selected_completion true = [] := by
    simp [CompletionsMenu.resolve_selected_completion, hres, hsel, providerResolve,
      hcomp, hresolved]
  rw [hnone]
  simp

/-- A menu whose single candidate is already resolved and selected. -/
def sampleResolvedMenu : CompletionsMenu :=
  { id := 0
    sort_completions := false
    completions :=
      [ { new_text := [ 'x' ]
          label := { text := [ 'x' ], filter_range := (0, 1) }
          sort_text := none
          sort_key := (2, [ 'x' ])
          resolved := true } ]
    match_candidates := [[ 'x' ]]
    entries :=
      [ CompletionEntry.Match
          { candidate_id := 0, score := 1, positions := [], string := [ 'x' ] } ]
    selected_item := 0
    resolve_completions := true
    show_completion_documentation := false }

theorem c4_resolve_idempotent_witness :
    sampleResolvedMenu.resolve_completions = true ∧
      (sampleResolvedMenu.resolve_selected_completion true).length +
        (sampleResolvedMenu.resolve_selected_completion true).length ≤ 1 :=
  ⟨rfl, c4_resolve_idempotent sampleResolvedMenu
    { candidate_id := 0, score := 1, positions := [], string := [ 'x' ] }
    { new_text := [ 'x' ]
      label := { text := [ 'x' ], filter_range := (0, 1) }
      sort_text := none
      sort_key := (2, [ 'x' ])
      resolved := true }
    rfl rfl rfl rfl⟩

/-! ### Claim C5 -/

/-- Claim C5: `CodeActionContents` is a faithful virtual concatenation:
`len` is the sum of the two lengths, `get` maps the first block of
indices to `Task` items and the rest, shifted, to `CodeAction` items
(`none` past the end), and `is_empty` and iteration agree with the same
index mapping. -/
theorem c5_code_action_contents_indexing (c : CodeActionContents) :
    c.len = c.taskList.length + c.actionList.length ∧
    (∀ i, c.get i =
      if i < c.taskList.length then
        (c.taskList[i]?).map (fun p => CodeActionsItem.Task p.1 p.2)
      else
        (c.actionList[i - c.taskList.length]?).map (fun a =>
          CodeActionsItem.CodeAction a.excerpt_id a.action a.provider)) ∧
    (c.is_empty = true ↔ c.len = 0) ∧
    c.iter.length = c.len ∧
    (∀ i, c.iter[i]? = c.get i) := by
  obtain ⟨tasks, actions⟩ := c
  cases tasks with
  | none =>
    cases actions with
    | none =>
      refine ⟨rfl, ?_, by simp [CodeActionContents.is_empty, CodeActionContents.len], rfl, ?_⟩
      · intro i
        simp [CodeActionContents.get, CodeActionContents.taskList,
          CodeActionContents.actionList]
      · intro i
        simp [CodeActionContents.iter, CodeActionContents.get]
    | some as =>
      refine ⟨by simp [CodeActionContents.len, CodeActionContents.taskList,
        CodeActionContents.actionList], ?_, ?_, ?_, ?_⟩
      · intro i
        simp [CodeActionContents.get, CodeActionContents.taskList,
          CodeActionContents.actionList]
      · simp [CodeActionContents.is_empty, CodeActionContents.len, List.isEmpty_iff,
          List.length_eq_zero]
      · simp [CodeActionContents.iter, CodeActionContents.len]
      · intro i
        simp [CodeActionContents.iter, CodeActionContents.get, List.getElem?_map]
  | some ts =>
    cases actions with
    | none =>
      refine ⟨by simp [CodeActionContents.len, CodeActionContents.taskList,
        CodeActionContents.actionList], ?_, ?_, ?_, ?_⟩
      · intro i
        by_cases hi : i < ts.templates.length
        · simp [CodeActionContents.get, CodeActionContents.taskList, hi]
        · simp [CodeActionContents.get, CodeActionContents.taskList,
            CodeActionContents.actionList, hi]
          omega
      · simp [CodeActionContents.is_empty, CodeActionContents.len, List.isEmpty_iff,
          List.length_eq_zero]
      · simp [CodeActionContents.iter, CodeActionContents.len]
      · intro i
        simp [CodeActionContents.iter, CodeActionContents.get, List.getElem?_map]
    | some as =>
      refine ⟨by simp [CodeActionContents.len, CodeActionContents.taskList,
        CodeActionContents.actionList, Nat.add_comm], ?_, ?_, ?_, ?_⟩
      · intro i
        by_cases hi : i < ts.templates.length
        · simp [CodeActionContents.get, CodeActionContents.taskList, hi]
        · simp [CodeActionContents.get, CodeActionContents.taskList,
            CodeActionContents.actionList, hi]
      · simp [CodeActionContents.is_empty, CodeActionContents.len, List.isEmpty_iff,
          List.length_eq_zero]
      · simp [CodeActionContents.iter, CodeActionContents.len, Nat.add_comm]
      · intro i
        by_cases hi : i < ts.templates.length
        · rw [CodeActionContents.iter, List.getElem?_append_left (by simpa using hi)]
          simp [CodeActionContents.get, CodeActionContents.taskList, hi, List.getElem?_map]
        · rw [CodeActionContents.iter, List.getElem?_append_right (by simpa using Nat.le_of_not_lt hi)]
          simp [CodeActionContents.get, CodeActionContents.taskList,
            CodeActionContents.actionList, hi, List.getElem?_map]

/-! ### Claim C6 -/

/-- The inline hint occurs nowhere past index 0 (so there is at most
one, and if present it is first). -/
def hintOnlyAtHead (es : List CompletionEntry) : Bool :=
  (es.drop 1).all (fun e =>
    match e with
    | CompletionEntry.Match _ => true
    | CompletionEntry.InlineCompletionHint _ => false)

/-- Claim C6: `entries` holds at most one inline hint, always at index
0: `show_inline_completion_hint` preserves this shape, puts the new
hint at index 0 and forces the selection there, and `filter`
re-establishes it, re-inserting a previously present hint at index 0
and resetting the selection. -/
theorem c6_single_hint_at_head (m : CompletionsMenu) (hint : InlineCompletionMenuHint)
    (query : Option Str) (fuzzyResult : List StringMatch) :
    (hintOnlyAtHead m.entries = true →
      hintOnlyAtHead (m.show_inline_completion_hint hint).entries = true) ∧
    (m.show_inline_completion_hint hint).entries.head? =
      some (CompletionEntry.InlineCompletionHint hint) ∧
    (m.show_inline_completion_hint hint).selected_item = 0 ∧
    hintOnlyAtHead (m.filter query fuzzyResult).entries = true ∧
    (∀ h₀, m.entries.head? = some (CompletionEntry.InlineCompletionHint h₀) →
      (m.filter query fuzzyResult).entries.head? =
        some (CompletionEntry.InlineCompletionHint h₀)) ∧
    (m.filter query fuzzyResult).selected_item = 0 := by
  have hmapall : ∀ mats : List StringMatch,
      (mats.map CompletionEntry.Match).all (fun e =>
        match e with
        | CompletionEntry.Match _ => true
        | CompletionEntry.InlineCompletionHint _ => false) = true := by
    intro mats
    rw [List.all_eq_true]
    intro e he
    obtain ⟨mat, -, rfl⟩ := List.mem_map.mp he
    rfl
  refine ⟨?_, ?_, rfl, ?_, ?_, rfl⟩
  · intro hm
    cases hent : m.entries with
    | nil => simp [CompletionsMenu.show_inline_completion_hint, hent, hintOnlyAtHead]
    | cons e es =>
      cases e with
      | Match mat =>
        rw [hintOnlyAtHead, hent] at hm
        simp only [CompletionsMenu.show_inline_completion_hint, hent, List.head?_cons,
          hintOnlyAtHead]
        simp only [List.drop_succ_cons, List.drop_zero] at hm ⊢
        simpa using hm
      | InlineCompletionHint h0 =>
        rw [hintOnlyAtHead, hent] at hm
        simp only [CompletionsMenu.show_inline_completion_hint, hent, List.head?_cons,
          hintOnlyAtHead, List.set_cons_zero]
        simpa using hm
  · cases hent : m.entries with
    | nil => simp [CompletionsMenu.show_inline_completion_hint, hent]
    | cons e es =>
      cases e with
      | Match mat =>
        simp [CompletionsMenu.show_inline_completion_hint, hent]
      | InlineCompletionHint h0 =>
        simp [CompletionsMenu.show_inline_completion_hint, hent, List.set_cons_zero]
  · show hintOnlyAtHead (hintCarry m.entries ++ _) = true
    cases hent : m.entries with
    | nil =>
      rw [hintOnlyAtHead]
      simp only [hintCarry, hent, List.head?_nil, List.nil_append]
      rw [List.all_eq_true]
      intro e he
      have hmem := List.mem_of_mem_drop he
      obtain ⟨mat, -, rfl⟩ := List.mem_map.mp hmem
      rfl
    | cons e es =>
      cases e with
      | Match mat =>
        rw [hintOnlyAtHead]
        simp only [hintCarry, hent, List.head?_cons, List.nil_append]
        rw [List.all_eq_true]
        intro x hx
        have hmem := List.mem_of_mem_drop hx
        obtain ⟨mt, -, rfl⟩ := List.mem_map.mp hmem
        rfl
      | InlineCompletionHint h0 =>
        rw [hintOnlyAtHead]
        simp only [hintCarry, hent, List.head?_cons, List.singleton_append,
          List.drop_succ_cons, List.drop_zero]
        exact hmapall _
  · intro h₀ hh
    show (hintCarry m.entries ++ _).head? = _
    simp only [hintCarry, hh, List.singleton_append, List.head?_cons]

/-! ### Claim C7 -/

theorem select_next_mod (m : CompletionsMenu)
    (hsel : m.selected_item < m.entries.length) :
    m.select_next.selected_item = (m.selected_item + 1) % m.entries.length := by
  show (if m.selected_item + 1 < m.entries.length then m.selected_item + 1 else 0) = _
  by_cases h : m.selected_item + 1 < m.entries.length
  · rw [if_pos h, Nat.mod_eq_of_lt h]
  · rw [if_neg h]
    have heq : m.selected_item + 1 = m.entries.length := by omega
    rw [heq, Nat.mod_self]

theorem select_prev_mod (m : CompletionsMenu)
    (hsel : m.selected_item < m.entries.length) :
    m.select_prev.selected_item =
      (m.selected_item + (m.entries.length - 1)) % m.entries.length := by
  show (if m.selected_item > 0 then m.selected_item - 1 else m.entries.length - 1) = _
  by_cases h : m.selected_item > 0
  · rw [if_pos h]
    have heq : m.selected_item + (m.entries.length - 1) =
        (m.selected_item - 1) + m.entries.length := by omega
    rw [heq, Nat.add_mod_right, Nat.mod_eq_of_lt (by omega)]
  · rw [if_neg h]
    have h0 : m.selected_item = 0 := by omega
    rw [h0, Nat.zero_add, Nat.mod_eq_of_lt (by omega)]

theorem select_next_iterate (k : Nat) :
    ∀ m : CompletionsMenu, m.selected_item < m.entries.length →
      (CompletionsMenu.select_next^[k] m).entries = m.entries ∧
      (CompletionsMenu.select_next^[k] m).selected_item =
        (m.selected_item + k) % m.entries.length := by
  induction k with
  | zero =>
    intro m hm
    simp [Nat.mod_eq_of_lt hm]
  | succ k ih =>
    intro m hm
    rw [Function.iterate_succ_apply]
    have hlen : 0 < m.entries.length := Nat.lt_of_le_of_lt (Nat.zero_le _) hm
    have hnext := select_next_mod m hm
    have hne : m.select_next.entries = m.entries := rfl
    have hm' : m.select_next.selected_item < m.select_next.entries.length := by
      rw [hnext, hne]
      exact Nat.mod_lt _ hlen
    obtain ⟨he, hs⟩ := ih m.select_next hm'
    refine ⟨he.trans hne, ?_⟩
    rw [hs, hne, hnext, Nat.mod_add_mod]
    congr 1
    omega

theorem select_prev_iterate (k : Nat) :
    ∀ m : CompletionsMenu, m.selected_item < m.entries.length →
      (CompletionsMenu.select_prev^[k] m).entries = m.entries ∧
      (CompletionsMenu.select_prev^[k] m).selected_item =
        (m.selected_item + k * (m.entries.length - 1)) % m.entries.length := by
  induction k with
  | zero =>
    intro m hm
    simp [Nat.mod_eq_of_lt hm]
  | succ k ih =>
    intro m hm
    rw [Function.iterate_succ_apply]
    have hlen : 0 < m.entries.length := Nat.lt_of_le_of_lt (Nat.zero_le _) hm
    have hprev := select_prev_mod m hm
    have hne : m.select_prev.entries = m.entries := rfl
    have hm' : m.select_prev.selected_item < m.select_prev.entries.length := by
      rw [hprev, hne]
      exact Nat.mod_lt _ hlen
    obtain ⟨he, hs⟩ := ih m.select_prev hm'
    refine ⟨he.trans hne, ?_⟩
    rw [hs, hne, hprev, Nat.mod_add_mod]
    congr 1
    rw [Nat.succ_mul]
    generalize m.entries.length - 1 = d
    ring

/-- Claim C7: on a menu with at least one entry and an in-range
selection, `select_next` and `select_prev` step the selection
circularly (wrapping at both ends), so `N` consecutive `select_next`
calls restore the original `selected_item`, and likewise `N`
consecutive `select_prev` calls. -/
theorem c7_selection_wraparound (m : CompletionsMenu)
    (_hlen : 1 ≤ m.entries.length) (hsel : m.selected_item < m.entries.length) :
    m.select_next.selected_item = (m.selected_item + 1) % m.entries.length ∧
    m.select_prev.selected_item =
      (m.selected_item + (m.entries.length - 1)) % m.entries.length ∧
    (CompletionsMenu.select_next^[m.entries.length] m).selected_item = m.selected_item ∧
    (CompletionsMenu.select_prev^[m.entries.length] m).selected_item = m.selected_item := by
  refine ⟨select_next_mod m hsel, select_prev_mod m hsel, ?_, ?_⟩
  · obtain ⟨-, hs⟩ := select_next_iterate m.entries.length m hsel
    rw [hs, Nat.add_mod_right, Nat.mod_eq_of_lt hsel]
  · obtain ⟨-, hs⟩ := select_prev_iterate m.entries.length m hsel
    rw [hs, Nat.add_mul_mod_self_left, Nat.mod_eq_of_lt hsel]

/-- A three-entry menu with the middle entry selected. -/
def sampleNavMenu : CompletionsMenu :=
  { id := 0
    sort_completions := false
    completions := []
    match_candidates := []
    entries :=
      [ CompletionEntry.Match
          { candidate_id := 0, score := 1, positions := [], string := [ 'a' ] },
        CompletionEntry.Match
          { candidate_id := 1, score := 1, positions := [], string := [ 'b' ] },
        CompletionEntry.Match
          { candidate_id := 2, score := 1, positions := [], string := [ 'c' ] } ]
    selected_item := 1
    resolve_completions := false
    show_completion_documentation := false }

theorem c7_selection_wraparound_witness :
    1 ≤ sampleNavMenu.entries.length ∧
      (CompletionsMenu.select_next^[sampleNavMenu.entries.length]
        sampleNavMenu).selected_item = sampleNavMenu.selected_item :=
  ⟨by decide, (c7_selection_wraparound sampleNavMenu (by decide) (by decide)).2.2.1⟩

theorem c6_single_hint_at_head_witness :
    hintOnlyAtHead
      (sampleNavMenu.show_inline_completion_hint
        { provider_name := [ 'z' ], preview := [] }).entries = true ∧
    (sampleNavMenu.filter none []).selected_item = 0 :=
  ⟨(c6_single_hint_at_head sampleNavMenu { provider_name := [ 'z' ], preview := [] }
      none []).1 (by decide),
   (c6_single_hint_at_head sampleNavMenu { provider_name := [ 'z' ], preview := [] }
      none []).2.2.2.2.2⟩

/-! ### Claim C8 -/

/-- Claim C8: a snippet-choice menu built from `n` literal choices has
exactly `n` entries, each a `Match` with score `1.0`; resolution and
documentation display are disabled, every candidate is marked resolved,
and `resolve_selected_completion` issues no resolve call. -/
theorem c8_snippet_choices (id : Nat) (sort_completions : Bool) (choices : List Str)
    (hasProvider : Bool) :
    (CompletionsMenu.new_snippet_choices id sort_completions choices).entries.length =
      choices.length ∧
    (∀ e ∈ (CompletionsMenu.new_snippet_choices id sort_completions choices).entries,
      ∃ mat, e = CompletionEntry.Match mat ∧ mat.score = 1) ∧
    (CompletionsMenu.new_snippet_choices id sort_completions
      choices).resolve_completions = false ∧
    (CompletionsMenu.new_snippet_choices id sort_completions
      choices).show_completion_documentation = false ∧
    (∀ c ∈ (CompletionsMenu.new_snippet_choices id sort_completions choices).completions,
      c.resolved = true) ∧
    (CompletionsMenu.new_snippet_choices id sort_completions
      choices).resolve_selected_completion hasProvider = [] := by
  refine ⟨?_, ?_, rfl, rfl, ?_, rfl⟩
  · simp [CompletionsMenu.new_snippet_choices]
  · intro e he
    simp only [CompletionsMenu.new_snippet_choices, List.mem_map] at he
    obtain ⟨p, -, rfl⟩ := he
    exact ⟨_, rfl, rfl⟩
  · intro c hc
    simp only [CompletionsMenu.new_snippet_choices, List.mem_map] at hc
    obtain ⟨choice, -, rfl⟩ := hc
    rfl

/-! ### Claim C9 -/

/-- Claim C9: every `CodeContextMenu` navigation operation reports
"not handled" and leaves the menu unchanged when the menu is invisible,
and reports "handled" whenever it is visible. -/
theorem c9_navigation_visibility (m : CodeContextMenu) :
    (m.visible = false →
      m.select_first = (m, false) ∧ m.select_prev = (m, false) ∧
      m.select_next = (m, false) ∧ m.select_last = (m, false)) ∧
    (m.visible = true →
      m.select_first.2 = true ∧ m.select_prev.2 = true ∧
      m.select_next.2 = true ∧ m.select_last.2 = true) := by
  constructor
  · intro h
    refine ⟨?_, ?_, ?_, ?_⟩ <;>
      simp [CodeContextMenu.select_first, CodeContextMenu.select_prev,
        CodeContextMenu.select_next, CodeContextMenu.select_last, h]
  · intro h
    cases m <;>
      simp [CodeContextMenu.select_first, CodeContextMenu.select_prev,
        CodeContextMenu.select_next, CodeContextMenu.select_last, h]

/-- An invisible completions context menu. -/
def sampleEmptyContextMenu : CodeContextMenu :=
  CodeContextMenu.Completions
    { id := 0
      sort_completions := false
      completions := []
      match_candidates := []
      entries := []
      selected_item := 0
      resolve_completions := true
      show_completion_documentation := false }

/-- A visible one-action code-actions context menu. -/
def sampleActionsContextMenu : CodeContextMenu :=
  CodeContextMenu.CodeActions
    { actions :=
        { tasks := none
          actions := some [ { excerpt_id := 0, action := { title := [ 'x' ] }, provider := 0 } ] }
      selected_item := 0
      deployed_from_indicator := none }

theorem c9_navigation_visibility_witness :
    sampleEmptyContextMenu.select_first = (sampleEmptyContextMenu, false) ∧
      sampleActionsContextMenu.select_next.2 = true :=
  ⟨((c9_navigation_visibility sampleEmptyContextMenu).1 rfl).1,
   ((c9_navigation_visibility sampleActionsContextMenu).2 rfl).2.2.1⟩

/-! ### Claim C10 -/

/-- The selection invariant: on a non-empty menu the selection is in
range. -/
def menuInv (m : CompletionsMenu) : Prop :=
  m.entries ≠ [] → m.selected_item < m.entries.length

/-- Claim C10: empty entries make the menu invisible, and the in-range
selection invariant is preserved by the four selection moves on a
non-empty menu, by `show_inline_completion_hint`, and by `filter`. -/
theorem c10_selection_invariant (m : CompletionsMenu) (hint : InlineCompletionMenuHint)
    (query : Option Str) (fuzzyResult : List StringMatch) :
    (m.entries = [] → m.visible = false) ∧
    (menuInv m → m.entries ≠ [] →
      menuInv m.select_first ∧ menuInv m.select_prev ∧
      menuInv m.select_next ∧ menuInv m.select_last) ∧
    menuInv (m.show_inline_completion_hint hint) ∧
    menuInv (m.filter query fuzzyResult) := by
  refine ⟨?_, ?_, ?_, ?_⟩
  · intro h
    simp [CompletionsMenu.visible, h]
  · intro hinv hne
    have hm := hinv hne
    have hlen : 0 < m.entries.length := List.length_pos.mpr hne
    refine ⟨?_, ?_, ?_, ?_⟩
    · intro _
      show (0 : Nat) < m.entries.length
      exact hlen
    · intro _
      show (if m.selected_item > 0 then m.selected_item - 1 else m.entries.length - 1) <
        m.entries.length
      split <;> omega
    · intro _
      show (if m.selected_item + 1 < m.entries.length then m.selected_item + 1 else 0) <
        m.entries.length
      split <;> omega
    · intro _
      show m.entries.length - 1 < m.entries.length
      omega
  · intro _
    show (m.show_inline_completion_hint hint).selected_item <
      (m.show_inline_completion_hint hint).entries.length
    cases hent : m.entries with
    | nil => simp [CompletionsMenu.show_inline_completion_hint, hent]
    | cons e es =>
      cases e with
      | Match mat => simp [CompletionsMenu.show_inline_completion_hint, hent]
      | InlineCompletionHint h0 =>
        simp [CompletionsMenu.show_inline_completion_hint, hent, List.set_cons_zero]
  · intro hne'
    show (0 : Nat) < (m.filter query fuzzyResult).entries.length
    exact List.length_pos.mpr hne'

theorem c10_selection_invariant_witness :
    menuInv sampleNavMenu.select_next ∧ menuInv (sampleNavMenu.filter none []) :=
  ⟨((c10_selection_invariant sampleNavMenu { provider_name := [], preview := [] }
      none []).2.1 (fun _ => by decide) (by decide)).2.2.1,
   (c10_selection_invariant sampleNavMenu { provider_name := [], preview := [] }
      none []).2.2.2⟩
